import Mathlib

set_option maxRecDepth 40000

/-!
Verification of the HD key-derivation and signing engine of the
`wdk-wallet-evm` repository against its natural-language specification.

The JavaScript sources are shallowly embedded:
* `Uint8Array` buffers become `List Nat` with every element `< 256`
  (big-endian, index 0 the most significant byte, as in the source);
* the mutable buffer store is an explicit heap `List (List Nat)`,
  keys hold buffer indices, and in-place writes become `List.set`;
* fallible operations return `Option` / `Except`;
* the external collaborators (HMAC-SHA512 from `ethers`, the secp256k1
  ECDSA routine from `@noble/secp256k1`) are parameters of the embedded
  functions, never reimplemented.
-/

/-- The secp256k1 group order `n` (`secp256k1.CURVE.n` in the source). -/
def secpN : Nat :=
  0xFFFFFFFFFFFFFFFFFFFFFFFFFFFFFFFEBAAEDCE6AF48A03BBFD25E8CD0364141

/-- The hardened-index bit: `const HardenedBit = 0x80000000`
(src/memory-safe/hd-node-wallet.js). -/
def HardenedBit : Nat := 0x80000000

/-- The constant `MasterSecret = new Uint8Array([66, 105, ...])`, the ASCII bytes
of `"Bitcoin seed"` (src/memory-safe/hd-node-wallet.js line 10). -/
def masterSecret : List Nat :=
  [66, 105, 116, 99, 111, 105, 110, 32, 115, 101, 101, 100]

/-- Byte `i` (big-endian position) of the curve order:
`Number((secp256k1.CURVE.n >> BigInt(8 * (31 - i))) & 0xffn)`. -/
def curveOrderByte (i : Nat) : Nat := secpN / 2 ^ (8 * (31 - i)) % 256

/-- The 32 big-endian bytes of the curve order, as read by
`subtractFromPrivateKey` and `compareWithCurveOrder`. -/
def curveBytesBE : List Nat := (List.range 32).map curveOrderByte

/-- Value of a little-endian base-256 digit list. -/
def leVal : List Nat → Nat
  | [] => 0
  | d :: l => d + 256 * leVal l

/-- Value of a big-endian byte list (the integer a `Uint8Array` buffer
holds, most significant byte first). -/
def beVal : List Nat → Nat
  | [] => 0
  | d :: l => d * 256 ^ l.length + beVal l

/-- The loop body of `addToPrivateKey`, written over little-endian lists
because the source iterates `i = 31` down to `0` (least significant byte
first) carrying `carry = sum >> 8` and storing `sum & 0xff`.
Returns the stored bytes and the final carry. -/
def addBytesLE : List Nat → List Nat → Nat → List Nat × Nat
  | a :: as, b :: bs, c =>
    let sum := a + b + c
    let r := addBytesLE as bs (sum / 256)
    (sum % 256 :: r.1, r.2)
  | _, _, c => ([], c)

/-- Embeds `addToPrivateKey(privateKey, x)`: byte-wise big-endian addition with
carry, in-place on `privateKey` in the source; here the updated buffer is
returned together with `carry > 0` (overflow out of 256 bits). -/
def addToPrivateKey (privateKey x : List Nat) : List Nat × Bool :=
  let r := addBytesLE privateKey.reverse x.reverse 0
  (r.1.reverse, decide (0 < r.2))

/-- The loop body of `subtractFromPrivateKey`, little-endian like the
source loop (`i = 31` down to `0`): `diff = privateKey[i] - b[i] - carry`,
stored byte `diff < 0 ? diff + 256 : diff`, next carry `diff < 0 ? 1 : 0`.
Returns the stored bytes and the final borrow. -/
def subBytesLE : List Nat → List Nat → Nat → List Nat × Nat
  | a :: as, b :: bs, c =>
    let diff : Int := (a : Int) - (b : Int) - (c : Int)
    let out : Nat := (if diff < 0 then diff + 256 else diff).toNat
    let r := subBytesLE as bs (if diff < 0 then 1 else 0)
    (out :: r.1, r.2)
  | _, _, c => ([], c)

/-- Embeds `subtractFromPrivateKey(privateKey)`: subtracts the curve order `n`
byte-wise (borrow propagation, wrapping at 256 bits); in-place in the
source, returned here. -/
def subtractFromPrivateKey (privateKey : List Nat) : List Nat :=
  (subBytesLE privateKey.reverse curveBytesBE.reverse 0).1.reverse

/-- The comparison loop of `compareWithCurveOrder`: big-endian
lexicographic comparison returning `1`, `-1` or `0`. -/
def cmpBytesBE : List Nat → List Nat → Int
  | a :: as, b :: bs =>
    if b < a then 1 else if a < b then -1 else cmpBytesBE as bs
  | _, _ => 0

/-- Embeds `compareWithCurveOrder(buffer)` (the source's `offset` parameter is
only ever used with its default `0` and is dropped). -/
def compareWithCurveOrder (buffer : List Nat) : Int :=
  cmpBytesBE buffer curveBytesBE

/-- The private-key computation of `deriveChild` (hd-node-wallet.js lines
141-145): add `IL`, then subtract `n` exactly when the addition overflowed
256 bits or the raw sum compares `>= 0` against the curve order. -/
def deriveChildKey (privateKey il : List Nat) : List Nat :=
  let r := addToPrivateKey privateKey il
  if r.2 = true ∨ 0 ≤ compareWithCurveOrder r.1 then
    subtractFromPrivateKey r.1
  else r.1

/-- Successive application of `deriveChild`'s key computation: the chain
of private-key buffer values along a derivation sequence whose HMAC
outputs contribute the listed `IL` values. -/
def deriveSeq (k0 : List Nat) (ils : List (List Nat)) : List Nat :=
  ils.foldl deriveChildKey k0

theorem leVal_append (a b : List Nat) :
    leVal (a ++ b) = leVal a + 256 ^ a.length * leVal b := by
  induction a with
  | nil => simp [leVal]
  | cons d l ih => simp [leVal, ih, pow_succ]; ring

theorem leVal_reverse (l : List Nat) : leVal l.reverse = beVal l := by
  induction l with
  | nil => rfl
  | cons d l ih =>
    simp [beVal, List.reverse_cons, leVal_append, leVal, ih]
    ring

theorem leVal_lt_pow (l : List Nat) (h : ∀ d ∈ l, d < 256) :
    leVal l < 256 ^ l.length := by
  induction l with
  | nil => simp [leVal]
  | cons d l ih =>
    have hd : d < 256 := h d (List.mem_cons_self d l)
    have hl := ih (fun x hx => h x (List.mem_cons_of_mem d hx))
    simp only [leVal, List.length_cons, pow_succ]
    calc d + 256 * leVal l < 256 + 256 * leVal l := by omega
      _ ≤ 256 * 256 ^ l.length := by omega
      _ = 256 ^ l.length * 256 := by ring

theorem beVal_lt_pow (l : List Nat) (h : ∀ d ∈ l, d < 256) :
    beVal l < 256 ^ l.length := by
  have := leVal_lt_pow l.reverse (by simpa using h)
  rwa [leVal_reverse, List.length_reverse] at this

theorem addBytesLE_spec (as : List Nat) :
    ∀ bs c, as.length = bs.length →
      leVal (addBytesLE as bs c).1 + 256 ^ as.length * (addBytesLE as bs c).2
        = leVal as + leVal bs + c := by
  induction as with
  | nil =>
    intro bs c hl
    cases bs with
    | nil => simp [addBytesLE, leVal]
    | cons b bs => simp at hl
  | cons a as ih =>
    intro bs c hl
    cases bs with
    | nil => simp at hl
    | cons b bs =>
      simp only [List.length_cons, Nat.succ_inj] at hl
      have h := ih bs ((a + b + c) / 256) hl
      simp only [addBytesLE, leVal, List.length_cons, pow_succ]
      have hmod : (a + b + c) % 256 + 256 * ((a + b + c) / 256) = a + b + c :=
        Nat.mod_add_div _ _
      nlinarith [h, hmod]

theorem addBytesLE_bytes (as : List Nat) :
    ∀ bs c, ∀ d ∈ (addBytesLE as bs c).1, d < 256 := by
  induction as with
  | nil => intro bs c d hd; simp [addBytesLE] at hd
  | cons a as ih =>
    intro bs c d hd
    cases bs with
    | nil => simp [addBytesLE] at hd
    | cons b bs =>
      simp only [addBytesLE, List.mem_cons] at hd
      rcases hd with h | h
      · subst h; exact Nat.mod_lt _ (by omega)
      · exact ih bs _ d h

theorem addBytesLE_length (as : List Nat) :
    ∀ bs c, as.length = bs.length → (addBytesLE as bs c).1.length = as.length := by
  induction as with
  | nil => intro bs c _; simp [addBytesLE]
  | cons a as ih =>
    intro bs c hl
    cases bs with
    | nil => simp at hl
    | cons b bs =>
      simp only [List.length_cons, Nat.succ_inj] at hl
      simp [addBytesLE, ih bs _ hl]

theorem subBytesLE_spec (as : List Nat) :
    ∀ bs c, as.length = bs.length → (∀ d ∈ as, d < 256) → (∀ d ∈ bs, d < 256) →
      c ≤ 1 →
      leVal (subBytesLE as bs c).1 + leVal bs + c
          = leVal as + 256 ^ as.length * (subBytesLE as bs c).2
        ∧ (subBytesLE as bs c).2 ≤ 1
        ∧ (∀ d ∈ (subBytesLE as bs c).1, d < 256)
        ∧ (subBytesLE as bs c).1.length = as.length := by
  induction as with
  | nil =>
    intro bs c hl _ _ hc
    cases bs with
    | nil =>
      refine ⟨by simp [subBytesLE, leVal], ?_, ?_, by simp [subBytesLE]⟩
      · simpa [subBytesLE] using hc
      · intro d hd; simp [subBytesLE] at hd
    | cons b bs => simp at hl
  | cons a as ih =>
    intro bs c hl ha hb hc
    cases bs with
    | nil => simp at hl
    | cons b bs =>
      simp only [List.length_cons, Nat.succ_inj] at hl
      have ha' : ∀ d ∈ as, d < 256 := fun d hd => ha d (List.mem_cons_of_mem _ hd)
      have hb' : ∀ d ∈ bs, d < 256 := fun d hd => hb d (List.mem_cons_of_mem _ hd)
      have haa : a < 256 := ha a (List.mem_cons_self _ _)
      have hbb : b < 256 := hb b (List.mem_cons_self _ _)
      set c2 : Nat := if (a : Int) - (b : Int) - (c : Int) < 0 then 1 else 0 with hc2
      have hc2le : c2 ≤ 1 := by rw [hc2]; split <;> omega
      obtain ⟨ihv, ihc, ihb, ihl⟩ := ih bs c2 hl ha' hb' hc2le
      set out : Nat :=
        (if (a : Int) - (b : Int) - (c : Int) < 0
          then (a : Int) - (b : Int) - (c : Int) + 256
          else (a : Int) - (b : Int) - (c : Int)).toNat with hout
      have hbyte : out + b + c = a + 256 * c2 ∧ out < 256 := by
        rw [hout, hc2]
        split
        · constructor
          · omega
          · omega
        · constructor
          · omega
          · omega
      have hstep : subBytesLE (a :: as) (b :: bs) c
          = (out :: (subBytesLE as bs c2).1, (subBytesLE as bs c2).2) := by
        rw [hout, hc2]; rfl
      rw [hstep]
      refine ⟨?_, ihc, ?_, ?_⟩
      · simp only [leVal, List.length_cons, pow_succ]
        nlinarith [ihv, hbyte.1]
      · intro d hd
        rcases List.mem_cons.mp hd with h | h
        · subst h; exact hbyte.2
        · exact ihb d h
      · simp [ihl]

theorem cmpBytesBE_spec (as : List Nat) :
    ∀ bs, as.length = bs.length → (∀ d ∈ as, d < 256) → (∀ d ∈ bs, d < 256) →
      (0 ≤ cmpBytesBE as bs ↔ beVal bs ≤ beVal as) := by
  induction as with
  | nil =>
    intro bs hl _ _
    cases bs with
    | nil => simp [cmpBytesBE, beVal]
    | cons b bs => simp at hl
  | cons a as ih =>
    intro bs hl ha hb
    cases bs with
    | nil => simp at hl
    | cons b bs =>
      simp only [List.length_cons, Nat.succ_inj] at hl
      have ha' : ∀ d ∈ as, d < 256 := fun d hd => ha d (List.mem_cons_of_mem _ hd)
      have hb' : ∀ d ∈ bs, d < 256 := fun d hd => hb d (List.mem_cons_of_mem _ hd)
      have hbsv : beVal bs < 256 ^ bs.length := beVal_lt_pow bs hb'
      have hasv : beVal as < 256 ^ as.length := beVal_lt_pow as ha'
      simp only [cmpBytesBE, beVal, hl]
      by_cases h1 : b < a
      · simp only [if_pos h1]
        constructor
        · intro _
          have : (b + 1) * 256 ^ bs.length ≤ a * 256 ^ bs.length :=
            Nat.mul_le_mul_right _ (by omega)
          nlinarith
        · intro _; norm_num
      · by_cases h2 : a < b
        · simp only [if_neg h1, if_pos h2]
          constructor
          · intro h; norm_num at h
          · intro hle
            exfalso
            have : (a + 1) * 256 ^ bs.length ≤ b * 256 ^ bs.length :=
              Nat.mul_le_mul_right _ (by omega)
            rw [hl] at hasv
            nlinarith
        · have hab : a = b := by omega
          simp only [if_neg h1, if_neg h2]
          rw [ih bs hl ha' hb', hab]
          constructor
          · intro h; omega
          · intro h; omega

theorem beVal_reverse (l : List Nat) : beVal l.reverse = leVal l := by
  have := leVal_reverse l.reverse
  rw [List.reverse_reverse] at this
  exact this.symm

theorem curveBytesBE_val : beVal curveBytesBE = secpN := by decide

theorem curveBytesBE_bytes : ∀ d ∈ curveBytesBE, d < 256 := by decide

theorem curveBytesBE_length : curveBytesBE.length = 32 := by decide

theorem secpN_lt_pow : secpN < 256 ^ 32 := by norm_num [secpN]

theorem secpN_pos : 0 < secpN := by norm_num [secpN]

theorem pow_half_lt : 256 ^ 32 < 2 * secpN := by norm_num [secpN]

theorem addToPrivateKey_spec (a x : List Nat)
    (ha : a.length = 32) (hx : x.length = 32)
    (hab : ∀ d ∈ a, d < 256) (hxb : ∀ d ∈ x, d < 256) :
    beVal (addToPrivateKey a x).1
        + 256 ^ 32 * (if (addToPrivateKey a x).2 then 1 else 0)
        = beVal a + beVal x
      ∧ (∀ d ∈ (addToPrivateKey a x).1, d < 256)
      ∧ (addToPrivateKey a x).1.length = 32 := by
  have hlrev : a.reverse.length = x.reverse.length := by
    simp [ha, hx]
  have hspec := addBytesLE_spec a.reverse x.reverse 0 hlrev
  have hbytes := addBytesLE_bytes a.reverse x.reverse 0
  have hlen := addBytesLE_length a.reverse x.reverse 0 hlrev
  rw [List.length_reverse, ha] at hspec hlen
  rw [leVal_reverse, leVal_reverse] at hspec
  set r := addBytesLE a.reverse x.reverse 0 with hr
  have hsumlt : beVal a + beVal x < 2 * 256 ^ 32 := by
    have h1 := beVal_lt_pow a hab
    have h2 := beVal_lt_pow x hxb
    rw [ha] at h1; rw [hx] at h2
    omega
  have hcar : r.2 ≤ 1 := by
    by_contra hgt
    have : 2 * 256 ^ 32 ≤ 256 ^ 32 * r.2 := by nlinarith
    omega
  have hfst : (addToPrivateKey a x).1 = r.1.reverse := rfl
  have hsnd : (addToPrivateKey a x).2 = decide (0 < r.2) := rfl
  refine ⟨?_, ?_, ?_⟩
  · rw [hfst, hsnd, beVal_reverse]
    by_cases h0 : 0 < r.2
    · have : r.2 = 1 := by omega
      simp [h0, this] at hspec ⊢
      omega
    · have : r.2 = 0 := by omega
      simp [h0, this] at hspec ⊢
      omega
  · intro d hd
    rw [hfst] at hd
    exact hbytes d (List.mem_reverse.mp hd)
  · rw [hfst]
    simp [hlen]

theorem subtractFromPrivateKey_spec (s : List Nat)
    (hs : s.length = 32) (hsb : ∀ d ∈ s, d < 256) :
    (beVal (subtractFromPrivateKey s) + secpN = beVal s
        ∨ beVal (subtractFromPrivateKey s) + secpN = beVal s + 256 ^ 32)
      ∧ (∀ d ∈ subtractFromPrivateKey s, d < 256)
      ∧ (subtractFromPrivateKey s).length = 32 := by
  have hlrev : s.reverse.length = curveBytesBE.reverse.length := by
    simp [hs, curveBytesBE_length]
  obtain ⟨hv, hc, hb, hl⟩ := subBytesLE_spec s.reverse curveBytesBE.reverse 0 hlrev
    (by simpa using hsb) (by simpa using curveBytesBE_bytes) (by omega)
  rw [List.length_reverse, hs] at hv hl
  rw [leVal_reverse, leVal_reverse, curveBytesBE_val] at hv
  set r := subBytesLE s.reverse curveBytesBE.reverse 0 with hr
  have hfst : subtractFromPrivateKey s = r.1.reverse := rfl
  refine ⟨?_, ?_, ?_⟩
  · rw [hfst, beVal_reverse]
    rcases Nat.le_one_iff_eq_zero_or_eq_one.mp hc with h | h
    · left; omega
    · right; omega
  · intro d hd
    rw [hfst] at hd
    exact hb d (List.mem_reverse.mp hd)
  · rw [hfst]
    simp [hl]

theorem compareWithCurveOrder_spec (s : List Nat)
    (hs : s.length = 32) (hsb : ∀ d ∈ s, d < 256) :
    0 ≤ compareWithCurveOrder s ↔ secpN ≤ beVal s := by
  have := cmpBytesBE_spec s curveBytesBE (by simp [hs, curveBytesBE_length])
    hsb curveBytesBE_bytes
  rw [curveBytesBE_val] at this
  exact this

theorem deriveChildKey_spec (a x : List Nat)
    (ha : a.length = 32) (hx : x.length = 32)
    (hab : ∀ d ∈ a, d < 256) (hxb : ∀ d ∈ x, d < 256)
    (han : beVal a < secpN) (hxn : beVal x < secpN) :
    beVal (deriveChildKey a x) = (beVal a + beVal x) % secpN
      ∧ (∀ d ∈ deriveChildKey a x, d < 256)
      ∧ (deriveChildKey a x).length = 32 := by
  obtain ⟨hadd, haddB, haddL⟩ := addToPrivateKey_spec a x ha hx hab hxb
  set r := addToPrivateKey a x with hr
  have hsumlt : beVal a + beVal x < 2 * secpN := by omega
  have hfstlt : beVal r.1 < 256 ^ 32 := by
    have := beVal_lt_pow r.1 haddB
    rwa [haddL] at this
  have hcmp := compareWithCurveOrder_spec r.1 haddL haddB
  have hdef : deriveChildKey a x
      = if r.2 = true ∨ 0 ≤ compareWithCurveOrder r.1 then
          subtractFromPrivateKey r.1
        else r.1 := rfl
  rw [hdef]
  by_cases hov : r.2 = true
  · -- overflow out of 256 bits: the raw sum lost 256^32
    have hval : beVal r.1 + 256 ^ 32 = beVal a + beVal x := by
      rw [hov] at hadd; simpa using hadd
    obtain ⟨hsub, hsubB, hsubL⟩ :=
      subtractFromPrivateKey_spec r.1 haddL haddB
    rw [if_pos (Or.inl hov)]
    have hlt : beVal r.1 < secpN := by
      have := pow_half_lt
      omega
    have hsubv : beVal (subtractFromPrivateKey r.1) + secpN
        = beVal r.1 + 256 ^ 32 := by
      rcases hsub with h | h
      · omega
      · exact h
    refine ⟨?_, hsubB, hsubL⟩
    have hn_le : secpN ≤ beVal a + beVal x := by
      have h1 := secpN_lt_pow
      omega
    rw [Nat.mod_eq_sub_mod hn_le, Nat.mod_eq_of_lt (by omega)]
    omega
  · have hval : beVal r.1 = beVal a + beVal x := by
      simp [hov] at hadd; omega
    by_cases hge : 0 ≤ compareWithCurveOrder r.1
    · obtain ⟨hsub, hsubB, hsubL⟩ :=
        subtractFromPrivateKey_spec r.1 haddL haddB
      rw [if_pos (Or.inr hge)]
      have hnle : secpN ≤ beVal r.1 := hcmp.mp hge
      have hsubv : beVal (subtractFromPrivateKey r.1) + secpN = beVal r.1 := by
        rcases hsub with h | h
        · exact h
        · exfalso
          have := beVal_lt_pow (subtractFromPrivateKey r.1) hsubB
          rw [hsubL] at this
          omega
      refine ⟨?_, hsubB, hsubL⟩
      rw [Nat.mod_eq_sub_mod (by omega), Nat.mod_eq_of_lt (by omega)]
      omega
    · rw [if_neg (by push_neg; exact ⟨hov, by omega⟩)]
      have hlt : beVal r.1 < secpN := by
        by_contra hle
        exact hge (hcmp.mpr (by omega))
      refine ⟨?_, haddB, haddL⟩
      rw [hval] at hlt ⊢
      rw [Nat.mod_eq_of_lt hlt]

/-- A derived HD node, value level (hd-node-wallet.js). The source stores
`chainCode` and `parentFingerprint` as `0x`-hex strings produced by
`hexlify`; the chain code is modelled by the underlying bytes (the hex
encoding is information-preserving), the constant parent fingerprint
string is kept verbatim.  The `fingerprint`, `mnemonic` and `provider`
fields play no role in any claim and are omitted. -/
structure HDNode where
  privateKey : List Nat
  chainCode : List Nat
  depth : Nat
  index : Nat
  parentFingerprint : String
  path : String
deriving DecidableEq

/-- Embeds `MemorySafeHDNodeWallet.#fromSeed(seed, null)` reached through the
public `fromSeed`: rejects a seed whose length is not in `[16, 64]`
(`assertArgument`, modelled as `none`); otherwise computes
`I = HMAC-SHA512(MasterSecret, seed)` — the HMAC implementation is the
external `ethers.computeHmac`, passed as the parameter `hm` — and builds
the master node from `I.slice(0, 32)` and `I.slice(32)`. -/
def fromSeed (hm : List Nat → List Nat → List Nat) (seed : List Nat) :
    Option HDNode :=
  if 16 ≤ seed.length ∧ seed.length ≤ 64 then
    let I := hm masterSecret seed
    some { privateKey := I.take 32, chainCode := I.drop 32,
           depth := 0, index := 0,
           parentFingerprint := "0x00000000", path := "m" }
  else none

/-- The mutable buffer store: JavaScript `Uint8Array` objects are heap
cells addressed by index, so aliasing and in-place writes are visible. -/
def Heap : Type := List (List Nat)

/-- Reading a buffer from the heap. -/
def heapRead (h : Heap) (i : Nat) : List Nat := List.getD h i []

/-- The class `MemorySafeSigningKey` (memory-safe/signing-key.js): its private field
`#privateKeyBuffer` holds a reference to a buffer (`some i`) or
`undefined` after disposal (`none`). -/
structure SigningKey where
  privId : Option Nat
deriving DecidableEq

/-- Embeds `sodium_memzero(buffer)`: overwrites the cell in place with zeros;
the heap keeps the same shape (no cell is added or replaced by a new
allocation). -/
def sodiumMemzero (h : Heap) (i : Nat) : Heap :=
  List.set h i (List.replicate (heapRead h i).length 0)

/-- Embeds `MemorySafeSigningKey.dispose()`: `sodium_memzero(#privateKeyBuffer)`
followed by `#privateKeyBuffer = undefined`.  On an already-disposed key
the zeroing call receives `undefined` and throws (`none`). -/
def SigningKey.dispose (h : Heap) (k : SigningKey) :
    Option (Heap × SigningKey) :=
  match k.privId with
  | some i => some (sodiumMemzero h i, { privId := none })
  | none => none

/-- The result of `secp256k1.sign(digest, key, { lowS: true })` from
`@noble/secp256k1`: an external collaborator, passed as a function
parameter wherever signing is embedded. -/
structure EcSig where
  r : Nat
  s : Nat
  recovery : Nat
deriving DecidableEq

/-- An ethers `Signature` restricted to the fields the source constructs:
`{ r, s, v }`. -/
structure Signature where
  r : Nat
  s : Nat
  v : Nat
deriving DecidableEq

/-- The distinguishable failures of `MemorySafeSigningKey.sign`:
`assertArgument('invalid digest length')` for a digest that is not
32 bytes, and the throw from `secp256k1.sign` receiving the `undefined`
key of a disposed instance. -/
inductive SignErr where
  | invalidDigestLength
  | disposedKey
deriving DecidableEq

/-- Embeds `MemorySafeSigningKey.sign(digest)`: asserts
`dataLength(digest) === 32`, then calls `secp256k1.sign` (the parameter
`ec`, applied to the digest and the referenced key buffer) and wraps the
result as `{ r, s, v: sig.recovery ? 0x1c : 0x1b }`. -/
def SigningKey.sign (ec : List Nat → List Nat → EcSig) (h : Heap)
    (k : SigningKey) (digest : List Nat) : Except SignErr Signature :=
  if digest.length = 32 then
    match k.privId with
    | some i =>
      let sg := ec digest (heapRead h i)
      .ok { r := sg.r, s := sg.s, v := if sg.recovery = 0 then 27 else 28 }
    | none => .error .disposedKey
  else .error .invalidDigestLength

/-- A `MemorySafeHDNodeWallet` at heap level: the signing key holds the
buffer reference; `publicKey` is the compressed public key bytes the
constructor caches.  `fingerprint`, `mnemonic` and `provider` are omitted
(not used by any claim). -/
structure HDNodeH where
  key : SigningKey
  chainCode : List Nat
  publicKey : List Nat
  depth : Nat
  index : Nat
  path : Option String
deriving DecidableEq

/-- The four big-endian index bytes written by the
`for (let i = 24; i >= 0; i -= 8)` loop of `ser_I`. -/
def indexBytesBE (index : Nat) : List Nat :=
  [index / 2 ^ 24 % 256, index / 2 ^ 16 % 256, index / 2 ^ 8 % 256,
   index % 256]

/-- Embeds `ser_I(index, chainCode, publicKey, privateKeyBuffer)`: builds the
37-byte HMAC input — `0x00 ‖ private key ‖ index` for a hardened index,
`compressed public key ‖ index` otherwise — and splits
`I = HMAC-SHA512(chainCode, data)` into `IL = I.slice(0, 32)` and
`IR = I.slice(32)`.  Hardened derivation on a key-less node hits
`assert(privateKeyBuffer != null)` (`none`). -/
def ser_I (hm : List Nat → List Nat → List Nat) (h : Heap) (index : Nat)
    (chainCode publicKey : List Nat) (privId : Option Nat) :
    Option (List Nat × List Nat) :=
  if HardenedBit ≤ index then
    match privId with
    | some i =>
      let data := 0 :: heapRead h i ++ indexBytesBE index
      let I := hm chainCode data
      some (I.take 32, I.drop 32)
    | none => none
  else
    let data := publicKey ++ indexBytesBE index
    let I := hm chainCode data
    some (I.take 32, I.drop 32)

/-- The apostrophe character marking hardened path components. -/
def hardenedMark : Char := Char.ofNat 39

/-- Embeds `deriveChild(index)` at heap level (hd-node-wallet.js lines 129-151):
checks `index <= 0xffffffff`, extends the path with
`(index & ~HardenedBit)` and a trailing apostrophe when hardened, runs
`ser_I`, then executes `addToPrivateKey(this.privateKeyBuffer, IL)` and
the conditional `subtractFromPrivateKey` ON THE PARENT'S BUFFER CELL
(`List.set` at the parent's own `privId`), and hands that same cell to
the child's `new MemorySafeSigningKey(this.privateKeyBuffer)`.  `hm` is
the external HMAC-SHA512, `ecPub` the external compressed-public-key
derivation caching `publicKey` in the child. -/
def deriveChildH (hm : List Nat → List Nat → List Nat)
    (ecPub : List Nat → List Nat) (h : Heap) (nd : HDNodeH)
    (index : Nat) : Option (Heap × HDNodeH) :=
  if index ≤ 0xffffffff then
    let path2 := nd.path.map (fun p =>
      p ++ "/" ++ toString (index % HardenedBit)
        ++ (if HardenedBit ≤ index then String.mk [hardenedMark] else ""))
    match ser_I hm h index nd.chainCode nd.publicKey nd.key.privId with
    | none => none
    | some (il, ir) =>
      match nd.key.privId with
      | none => none
      | some pid =>
        let buf := heapRead h pid
        let r := addToPrivateKey buf il
        let buf2 :=
          if r.2 = true ∨ 0 ≤ compareWithCurveOrder r.1 then
            subtractFromPrivateKey r.1
          else r.1
        let h2 := List.set h pid buf2
        some (h2,
          { key := { privId := some pid }, chainCode := ir,
            publicKey := ecPub buf2, depth := nd.depth + 1,
            index := index, path := path2 })
  else none

/-- JavaScript `s.substring(a, b)` for `a <= b` (the only way the source
calls it): the characters in positions `[a, b)`. -/
def jsSubstring (s : String) (a b : Nat) : String :=
  String.mk ((s.data.drop a).take (b - a))

/-- JavaScript `s.substring(a)`: the characters from position `a` on. -/
def jsSubstringFrom (s : String) (a : Nat) : String :=
  String.mk (s.data.drop a)

/-- Value of one hexadecimal digit character, `none` otherwise. -/
def hexDigitVal (c : Char) : Option Nat :=
  if 48 ≤ c.toNat ∧ c.toNat ≤ 57 then some (c.toNat - 48)
  else if 97 ≤ c.toNat ∧ c.toNat ≤ 102 then some (c.toNat - 97 + 10)
  else if 65 ≤ c.toNat ∧ c.toNat ≤ 70 then some (c.toNat - 65 + 10)
  else none

/-- JavaScript `parseInt(s, 16)` as the source invokes it (no leading
whitespace or sign in any reachable input): the maximal leading run of
hex digits, `NaN` (`none`) when that run is empty. -/
def parseIntHex (s : String) : Option Nat :=
  let ds := s.data.takeWhile (fun c => (hexDigitVal c).isSome)
  if ds.isEmpty then none
  else some (ds.foldl (fun a c => a * 16 + (hexDigitVal c).getD 0) 0)

/-- The test `ethersSignature.startsWith` against the two-character `0x` prefix. -/
def startsWith0x (s : String) : Bool := decide (s.data.take 2 = ['0', 'x'])

/-- Embeds `_convertSignature(ethersSignature)` (wallet-manager-evm.d.ts lines
218-230): strip an optional `0x`, split `r`/`s`/`v`, parse `v` as hex and
map it with `v === 27 ? 0 : 1`, emit `r + s + vConverted.toString()`. -/
def _convertSignature (ethersSignature : String) : String :=
  let sig := if startsWith0x ethersSignature then
      jsSubstringFrom ethersSignature 2
    else ethersSignature
  let r := jsSubstring sig 0 64
  let s := jsSubstring sig 64 128
  let v := parseIntHex (jsSubstring sig 128 130)
  let vConverted : Nat := if v = some 27 then 0 else 1
  r ++ s ++ toString vConverted

/-- Hexadecimal digit character (lowercase), as produced by JavaScript
`Number.prototype.toString(16)`. -/
def hexDigitChar (n : Nat) : Char :=
  if n < 10 then Char.ofNat (48 + n) else Char.ofNat (97 + n - 10)

/-- The digit list of JavaScript `n.toString(16)` for a natural `n`
(most significant digit first, lowercase letters). -/
def natToHexList (n : Nat) : List Char := Nat.toDigits 16 n

/-- JavaScript `s.padStart(len, c)`. -/
def jsPadStart (s : String) (len : Nat) (c : Char) : String :=
  String.mk (List.replicate (len - s.data.length) c ++ s.data)

/-- Embeds `_restoreSignature(yourSignature)` (wallet-manager-evm.d.ts lines
237-245): split `r`/`s` and the trailing `v` part, restore
`v === '0' ? 27 : 28`, emit `'0x' + r + s + v.toString(16).padStart(2, '0')`. -/
def _restoreSignature (yourSignature : String) : String :=
  let r := jsSubstring yourSignature 0 64
  let s := jsSubstring yourSignature 64 128
  let v := jsSubstringFrom yourSignature 128
  let vRestored : Nat := if v = "0" then 27 else 28
  "0x" ++ r ++ s ++ jsPadStart (String.mk (natToHexList vRestored)) 2 '0'

/-- The character class `[0-9]`. -/
def isDigitCh (c : Char) : Bool := decide (48 ≤ c.toNat ∧ c.toNat ≤ 57)

/-- The test `component.match(/^[0-9]+$/)` as a Boolean. -/
def matchDigitsRe (s : String) : Bool :=
  !s.data.isEmpty && s.data.all isDigitCh

/-- The test `component.match` against one or more digits
followed by a final apostrophe. -/
def matchHardenedRe (s : String) : Bool :=
  !s.data.dropLast.isEmpty && s.data.dropLast.all isDigitCh
    && decide (s.data.getLast? = some hardenedMark)

/-- JavaScript `parseInt(s)` on an all-digit string.  (For values at or
above `2^31` the JavaScript double may round, but rounding never moves a
value across the `< 0x80000000` test that consumes it, so the exact
natural number is a faithful model.) -/
def parseDigits (l : List Char) : Nat :=
  l.foldl (fun a c => a * 10 + (c.toNat - 48)) 0

/-- The `assertArgument` failures of `derivePath`
(hd-node-wallet.js lines 35-65), each recording the reported argument:
`"invalid path"`, the non-root `"m"` anchor rejection, and the
per-component `"invalid path index"` / `"invalid path component"`
failures naming `path[i]` and the component. -/
inductive PathErr where
  | invalidPath (path : String)
  | nonRootMaster (path : String)
  | invalidPathIndex (pos : Nat) (component : String)
  | invalidPathComponent (pos : Nat) (component : String)
deriving DecidableEq

/-- The `for` loop of `derivePath`: each component is matched against
`^[0-9]+'$` then `^[0-9]+$`, its index checked `< HardenedBit`, and
`result = result.deriveChild(...)` applied; `i` is the loop counter used
in the reported `path[i]`.  The derivation step is the parameter `dc`
(method dispatch on the node). -/
def derivePathLoop {α : Type} (dc : α → Nat → α) :
    α → List String → Nat → Except PathErr α
  | node, [], _ => .ok node
  | node, comp :: rest, i =>
    if matchHardenedRe comp then
      if parseDigits comp.data.dropLast < HardenedBit then
        derivePathLoop dc (dc node (HardenedBit + parseDigits comp.data.dropLast))
          rest (i + 1)
      else .error (.invalidPathIndex i comp)
    else if matchDigitsRe comp then
      if parseDigits comp.data < HardenedBit then
        derivePathLoop dc (dc node (parseDigits comp.data)) rest (i + 1)
      else .error (.invalidPathIndex i comp)
    else .error (.invalidPathComponent i comp)

/-- JavaScript `String.prototype.split(sep)` on the character list: always at least
one piece, empty pieces preserved. -/
def splitOnChar (sep : Char) : List Char → List (List Char)
  | [] => [[]]
  | c :: cs =>
    if c = sep then [] :: splitOnChar sep cs
    else
      match splitOnChar sep cs with
      | h :: t => (c :: h) :: t
      | [] => [[c]]

/-- JavaScript `path.split('/')`. -/
def jsSplit (s : String) (sep : Char) : List String :=
  (splitOnChar sep s.data).map String.mk

/-- Embeds `derivePath(node, path)` (hd-node-wallet.js lines 35-65): split on
`'/'`, reject an empty component array (unreachable: `split` never
returns one), consume a leading `"m"` only at depth `0`, then run the
component loop.  Generic in the node type: `dc` is `deriveChild`, `depth`
the node's depth accessor. -/
def derivePath {α : Type} (dc : α → Nat → α) (depth : α → Nat) (node : α)
    (path : String) : Except PathErr α :=
  let components := jsSplit path '/'
  if components.length > 0 then
    if components.head? = some "m" then
      if depth node = 0 then derivePathLoop dc node components.tail 0
      else .error (.nonRootMaster path)
    else derivePathLoop dc node components 0
  else .error (.invalidPath path)

/-- The index a single valid path component denotes (hardened bit
included), `none` for a component `derivePath` rejects. -/
def componentIndex (c : String) : Option Nat :=
  if matchHardenedRe c then
    if parseDigits c.data.dropLast < HardenedBit then
      some (HardenedBit + parseDigits c.data.dropLast)
    else none
  else if matchDigitsRe c then
    if parseDigits c.data < HardenedBit then some (parseDigits c.data)
    else none
  else none

/-- The indices of a component list, `none` as soon as one is invalid. -/
def componentsIdxs : List String → Option (List Nat)
  | [] => some []
  | c :: cs =>
    match componentIndex c, componentsIdxs cs with
    | some i, some is => some (i :: is)
    | _, _ => none

/-- Which error `derivePath` reports for an invalid component at
position `i`: a well-formed component with an out-of-range index is an
`"invalid path index"`, anything else an `"invalid path component"`;
both name the component and its position. -/
def violationErr (i : Nat) (c : String) : PathErr :=
  if matchHardenedRe c ∨ matchDigitsRe c then .invalidPathIndex i c
  else .invalidPathComponent i c

theorem derivePathLoop_ok {α : Type} (dc : α → Nat → α) :
    ∀ (cs : List String) (idxs : List Nat) (node : α) (i : Nat),
      componentsIdxs cs = some idxs →
      derivePathLoop dc node cs i = .ok (idxs.foldl dc node) := by
  intro cs
  induction cs with
  | nil =>
    intro idxs node i h
    simp [componentsIdxs] at h
    subst h
    rfl
  | cons c cs ih =>
    intro idxs node i h
    simp only [componentsIdxs] at h
    cases hci : componentIndex c with
    | none => rw [hci] at h; simp at h
    | some j =>
      rw [hci] at h
      cases hcs : componentsIdxs cs with
      | none => rw [hcs] at h; simp at h
      | some js =>
        rw [hcs] at h
        simp only [Option.some.injEq] at h
        subst h
        simp only [componentIndex] at hci
        simp only [derivePathLoop]
        by_cases h1 : matchHardenedRe c = true
        · rw [if_pos h1]
          rw [if_pos h1] at hci
          by_cases h2 : parseDigits c.data.dropLast < HardenedBit
          · rw [if_pos h2]
            rw [if_pos h2] at hci
            simp only [Option.some.injEq] at hci
            subst hci
            simp only [List.foldl_cons]
            exact ih js (dc node (HardenedBit + parseDigits c.data.dropLast)) (i + 1) hcs
          · rw [if_neg h2] at hci; simp at hci
        · rw [if_neg h1]
          rw [if_neg h1] at hci
          by_cases h3 : matchDigitsRe c = true
          · rw [if_pos h3]
            rw [if_pos h3] at hci
            by_cases h2 : parseDigits c.data < HardenedBit
            · rw [if_pos h2]
              rw [if_pos h2] at hci
              simp only [Option.some.injEq] at hci
              subst hci
              simp only [List.foldl_cons]
              exact ih js (dc node (parseDigits c.data)) (i + 1) hcs
            · rw [if_neg h2] at hci; simp at hci
          · rw [if_neg h3] at hci; simp at hci

theorem derivePathLoop_err {α : Type} (dc : α → Nat → α) :
    ∀ (pre : List String) (c : String) (post : List String) (node : α)
      (i : Nat),
      (∀ c2 ∈ pre, (componentIndex c2).isSome) →
      componentIndex c = none →
      derivePathLoop dc node (pre ++ c :: post) i
        = .error (violationErr (i + pre.length) c) := by
  intro pre
  induction pre with
  | nil =>
    intro c post node i _ hc
    simp only [componentIndex] at hc
    simp only [List.nil_append, derivePathLoop, violationErr]
    by_cases h1 : matchHardenedRe c = true
    · rw [if_pos h1]
      rw [if_pos h1] at hc
      by_cases h2 : parseDigits c.data.dropLast < HardenedBit
      · rw [if_pos h2] at hc; simp at hc
      · rw [if_neg h2]
        rw [if_pos (Or.inl h1)]
        simp
    · rw [if_neg h1]
      rw [if_neg h1] at hc
      by_cases h3 : matchDigitsRe c = true
      · rw [if_pos h3]
        rw [if_pos h3] at hc
        by_cases h2 : parseDigits c.data < HardenedBit
        · rw [if_pos h2] at hc; simp at hc
        · rw [if_neg h2]
          rw [if_pos (Or.inr h3)]
          simp
      · rw [if_neg h3]
        rw [if_neg h3] at hc
        have : ¬(matchHardenedRe c = true ∨ matchDigitsRe c = true) := by
          push_neg
          exact ⟨h1, h3⟩
        rw [if_neg this]
        simp
  | cons p pre ih =>
    intro c post node i hpre hc
    have hp : (componentIndex p).isSome :=
      hpre p (List.mem_cons_self _ _)
    have hpre' : ∀ c2 ∈ pre, (componentIndex c2).isSome :=
      fun c2 h2 => hpre c2 (List.mem_cons_of_mem _ h2)
    simp only [componentIndex] at hp
    simp only [List.cons_append, derivePathLoop]
    by_cases h1 : matchHardenedRe p = true
    · rw [if_pos h1]
      rw [if_pos h1] at hp
      by_cases h2 : parseDigits p.data.dropLast < HardenedBit
      · rw [if_pos h2]
        have harith : i + (p :: pre).length = i + 1 + pre.length := by
          simp
          omega
        rw [harith]
        exact ih c post (dc node (HardenedBit + parseDigits p.data.dropLast))
          (i + 1) hpre' hc
      · rw [if_neg h2] at hp; simp at hp
    · rw [if_neg h1]
      rw [if_neg h1] at hp
      by_cases h3 : matchDigitsRe p = true
      · rw [if_pos h3]
        rw [if_pos h3] at hp
        by_cases h2 : parseDigits p.data < HardenedBit
        · rw [if_pos h2]
          have harith : i + (p :: pre).length = i + 1 + pre.length := by
            simp
            omega
          rw [harith]
          exact ih c post (dc node (parseDigits p.data)) (i + 1) hpre' hc
        · rw [if_neg h2] at hp; simp at hp
      · rw [if_neg h3] at hp; simp at hp

theorem take_len_append {α : Type} (l1 l2 : List α) :
    (l1 ++ l2).take l1.length = l1 := by
  induction l1 with
  | nil => simp
  | cons a l ih => simp [ih]

theorem drop_len_append {α : Type} (l1 l2 : List α) :
    (l1 ++ l2).drop l1.length = l2 := by
  induction l1 with
  | nil => simp
  | cons a l ih => simp [ih]

theorem heapRead_set_self (h : Heap) :
    ∀ i v, i < h.length → heapRead (List.set h i v) i = v := by
  induction h with
  | nil => intro i v hi; simp at hi
  | cons x xs ih =>
    intro i v hi
    cases i with
    | zero => rfl
    | succ n =>
      show heapRead (List.set xs n v) n = v
      exact ih n v (by simpa using hi)

theorem heapRead_set_ne (h : Heap) :
    ∀ i j v, j ≠ i → heapRead (List.set h i v) j = heapRead h j := by
  induction h with
  | nil => intro i j v _; cases i <;> rfl
  | cons x xs ih =>
    intro i j v hne
    cases i with
    | zero =>
      cases j with
      | zero => exact absurd rfl hne
      | succ m => rfl
    | succ n =>
      cases j with
      | zero => rfl
      | succ m =>
        show heapRead (List.set xs n v) m = heapRead xs m
        exact ih n m v (by omega)

theorem fromSeed_eq_some (hm : List Nat → List Nat → List Nat)
    (seed : List Nat) (nd : HDNode) (h : fromSeed hm seed = some nd) :
    nd.privateKey = (hm masterSecret seed).take 32
      ∧ nd.chainCode = (hm masterSecret seed).drop 32
      ∧ nd.depth = 0 ∧ nd.index = 0
      ∧ nd.parentFingerprint = "0x00000000" ∧ nd.path = "m"
      ∧ 16 ≤ seed.length ∧ seed.length ≤ 64 := by
  rw [fromSeed] at h
  split at h
  · rename_i hcond
    simp only [Option.some.injEq] at h
    subst h
    exact ⟨rfl, rfl, rfl, rfl, rfl, rfl, hcond.1, hcond.2⟩
  · simp at h

theorem splitOnChar_ne_nil (sep : Char) : ∀ l, splitOnChar sep l ≠ [] := by
  intro l
  induction l with
  | nil => simp [splitOnChar]
  | cons c cs ih =>
    simp only [splitOnChar]
    by_cases h : c = sep
    · rw [if_pos h]; simp
    · rw [if_neg h]
      cases hs : splitOnChar sep cs with
      | nil => exact absurd hs ih
      | cons a t => simp

theorem jsSplit_ne_nil (s : String) (sep : Char) : jsSplit s sep ≠ [] := by
  rw [jsSplit]
  intro h
  rw [List.map_eq_nil_iff] at h
  exact splitOnChar_ne_nil sep s.data h

theorem deriveSeq_bounded (ils : List (List Nat)) :
    ∀ k0 : List Nat, k0.length = 32 → (∀ d ∈ k0, d < 256) →
      1 ≤ beVal k0 → beVal k0 < secpN →
      (∀ il ∈ ils, il.length = 32 ∧ (∀ d ∈ il, d < 256) ∧ beVal il < secpN) →
      (∀ i, (hi : i < ils.length) →
        (beVal (deriveSeq k0 (ils.take i)) + beVal (ils.get ⟨i, hi⟩)) % secpN ≠ 0) →
      1 ≤ beVal (deriveSeq k0 ils) ∧ beVal (deriveSeq k0 ils) < secpN := by
  induction ils with
  | nil =>
    intro k0 _ _ h1 h2 _ _
    exact ⟨h1, h2⟩
  | cons il ils ih =>
    intro k0 hlen hb h1 h2 hils hnz
    obtain ⟨hil_len, hil_b, hil_n⟩ := hils il (List.mem_cons_self _ _)
    obtain ⟨hck, hckb, hckl⟩ := deriveChildKey_spec k0 il hlen hil_len hb hil_b h2 hil_n
    have hstep : deriveSeq k0 (il :: ils) = deriveSeq (deriveChildKey k0 il) ils := rfl
    have h0 := hnz 0 (by simp)
    have htake0 : deriveSeq k0 ((il :: ils).take 0) = k0 := rfl
    have hget0 : (il :: ils).get ⟨0, by simp⟩ = il := rfl
    rw [htake0, hget0] at h0
    have hk1pos : 1 ≤ beVal (deriveChildKey k0 il) := by
      rw [hck]; omega
    have hk1lt : beVal (deriveChildKey k0 il) < secpN := by
      rw [hck]; exact Nat.mod_lt _ secpN_pos
    rw [hstep]
    refine ih (deriveChildKey k0 il) hckl hckb hk1pos hk1lt
      (fun x hx => hils x (List.mem_cons_of_mem _ hx)) ?_
    intro i hi
    have := hnz (i + 1) (by simpa using Nat.succ_lt_succ hi)
    have htake : (il :: ils).take (i + 1) = il :: ils.take i := rfl
    rw [htake] at this
    have hfold : deriveSeq k0 (il :: ils.take i)
        = deriveSeq (deriveChildKey k0 il) (ils.take i) := rfl
    rw [hfold] at this
    have hget : (il :: ils).get ⟨i + 1, by simpa using Nat.succ_lt_succ hi⟩
        = ils.get ⟨i, hi⟩ := rfl
    rw [hget] at this
    exact this

/-- C3: under the precondition that the parent private key value and the
value of `IL` are each below the curve order `n`, `addToPrivateKey`
(byte-wise big-endian addition with carry, overflow out of 256 bits
reported) followed by `subtractFromPrivateKey` applied exactly when the
overflow flag is set or `compareWithCurveOrder` reports the sum `≥ n` —
i.e. `deriveChildKey` — produces `(parent + IL) mod n` as a 32-byte
big-endian integer. -/
theorem addThenReduce_is_mod_curveOrder (a x : List Nat)
    (ha : a.length = 32) (hx : x.length = 32)
    (hab : ∀ d ∈ a, d < 256) (hxb : ∀ d ∈ x, d < 256)
    (han : beVal a < secpN) (hxn : beVal x < secpN) :
    beVal (deriveChildKey a x) = (beVal a + beVal x) % secpN
      ∧ (deriveChildKey a x).length = 32
      ∧ ∀ d ∈ deriveChildKey a x, d < 256 := by
  obtain ⟨h1, h2, h3⟩ := deriveChildKey_spec a x ha hx hab hxb han hxn
  exact ⟨h1, h3, h2⟩

/-- Witness for C3 at the concrete parent value 1 and `IL` value 2. -/
theorem addThenReduce_is_mod_curveOrder_witness :
    beVal (deriveChildKey (List.replicate 31 0 ++ [1]) (List.replicate 31 0 ++ [2]))
      = (beVal (List.replicate 31 0 ++ [1]) + beVal (List.replicate 31 0 ++ [2])) % secpN :=
  (addThenReduce_is_mod_curveOrder (List.replicate 31 0 ++ [1])
    (List.replicate 31 0 ++ [2]) (by decide) (by decide) (by decide)
    (by decide) (by decide) (by decide)).1

/-- The HMAC stand-in of C2's counterexample: every output byte `0xff`. -/
def c2Hmac : List Nat → List Nat → List Nat := fun _ _ => List.replicate 64 255

/-- C2 counterexample: with the HMAC-SHA512 treated as an arbitrary
function, `fromSeed` performs no curve-order check at all, so an output
whose first 32 bytes are all `0xff` yields a master node whose
private-key value is `2^256 - 1 ≥ n`, outside `[1, n-1]`. -/
theorem masterKey_can_reach_curveOrder :
    secpN ≤ (fromSeed c2Hmac (List.replicate 16 0)).elim 0
      (fun nd => beVal nd.privateKey) := by decide

/-- C2 (amended): provided every `IL` contributed by the HMAC outputs has
value in `[1, n-1]`, the master key produced by `fromSeed` has value in
`[1, n-1]`, and no derivation step's sum `parent + IL` is divisible by
`n`, the private-key value of every node reached by a sequence of
`deriveChild` steps stays in `[1, n-1]`. -/
theorem derivedKeys_stay_below_curveOrder
    (hm : List Nat → List Nat → List Nat) (seed : List Nat) (nd : HDNode)
    (ils : List (List Nat))
    (hfs : fromSeed hm seed = some nd)
    (hIlen : (hm masterSecret seed).length = 64)
    (hIb : ∀ d ∈ hm masterSecret seed, d < 256)
    (hm1 : 1 ≤ beVal nd.privateKey) (hmn : beVal nd.privateKey < secpN)
    (hils : ∀ il ∈ ils, il.length = 32 ∧ (∀ d ∈ il, d < 256) ∧ beVal il < secpN)
    (hnz : ∀ i, (hi : i < ils.length) →
      (beVal (deriveSeq nd.privateKey (ils.take i)) + beVal (ils.get ⟨i, hi⟩))
        % secpN ≠ 0) :
    1 ≤ beVal (deriveSeq nd.privateKey ils)
      ∧ beVal (deriveSeq nd.privateKey ils) < secpN := by
  obtain ⟨hpk, -, -, -, -, -, -, -⟩ := fromSeed_eq_some hm seed nd hfs
  have hlen : nd.privateKey.length = 32 := by
    rw [hpk, List.length_take, hIlen]
    omega
  have hb : ∀ d ∈ nd.privateKey, d < 256 := by
    intro d hd
    rw [hpk] at hd
    exact hIb d (List.mem_of_mem_take hd)
  exact deriveSeq_bounded ils nd.privateKey hlen hb hm1 hmn hils hnz

/-- The HMAC stand-in of C2's witness: master `IL` value 1. -/
def c2wHmac : List Nat → List Nat → List Nat :=
  fun _ _ => (List.replicate 31 0 ++ [1]) ++ List.replicate 32 0

/-- The master node C2's witness obtains from `fromSeed`. -/
def c2wNode : HDNode :=
  { privateKey := List.replicate 31 0 ++ [1],
    chainCode := List.replicate 32 0, depth := 0, index := 0,
    parentFingerprint := "0x00000000", path := "m" }

/-- Witness for C2's amended theorem: master value 1, one child step with
`IL` value 1, sum 2. -/
theorem derivedKeys_stay_below_curveOrder_witness :
    1 ≤ beVal (deriveSeq c2wNode.privateKey [List.replicate 31 0 ++ [1]])
      ∧ beVal (deriveSeq c2wNode.privateKey [List.replicate 31 0 ++ [1]])
          < secpN :=
  derivedKeys_stay_below_curveOrder c2wHmac (List.replicate 16 0) c2wNode
    [List.replicate 31 0 ++ [1]] (by decide) (by decide) (by decide)
    (by decide) (by decide) (by decide)
    (by
      intro i hi
      have h0 : i = 0 := by simp at hi; omega
      subst h0
      rw [show ([List.replicate 31 0 ++ [1]].get ⟨0, hi⟩)
        = List.replicate 31 0 ++ [1] from rfl]
      decide)

/-- C4: `fromSeed(seed)` fails exactly when the seed length is outside
`[16, 64]`; a successful call returns the master node whose private key
is the first 32 bytes and whose chain code is the last 32 bytes of
`HMAC-SHA512("Bitcoin seed", seed)` (the key constant `MasterSecret` is
the ASCII of `"Bitcoin seed"`), with depth 0, index 0, parent
fingerprint `0x00000000` and path `"m"`. -/
theorem fromSeed_master_spec (hm : List Nat → List Nat → List Nat)
    (seed : List Nat) :
    (fromSeed hm seed = none ↔ seed.length < 16 ∨ 64 < seed.length)
      ∧ masterSecret = "Bitcoin seed".data.map Char.toNat
      ∧ ∀ nd, fromSeed hm seed = some nd →
          nd.privateKey = (hm masterSecret seed).take 32
            ∧ nd.chainCode = (hm masterSecret seed).drop 32
            ∧ nd.depth = 0 ∧ nd.index = 0
            ∧ nd.parentFingerprint = "0x00000000" ∧ nd.path = "m" := by
  refine ⟨?_, by decide, ?_⟩
  · rw [fromSeed]
    split
    · rename_i hcond
      simp only [Option.some.injEq]
      constructor
      · intro h; simp at h
      · intro h; omega
    · rename_i hcond
      push_neg at hcond
      constructor
      · intro _
        by_cases h16 : 16 ≤ seed.length
        · right; exact hcond h16
        · left; omega
      · intro _; rfl
  · intro nd h
    obtain ⟨h1, h2, h3, h4, h5, h6, -, -⟩ := fromSeed_eq_some hm seed nd h
    exact ⟨h1, h2, h3, h4, h5, h6⟩

/-- The HMAC stand-in of C4's witness. -/
def c4wHmac : List Nat → List Nat → List Nat := fun _ _ => List.range 64

/-- Witness for C4 at a 20-byte seed and a concrete HMAC output. -/
theorem fromSeed_master_spec_witness :
    ({ privateKey := (List.range 64).take 32,
       chainCode := (List.range 64).drop 32, depth := 0, index := 0,
       parentFingerprint := "0x00000000", path := "m" } : HDNode).privateKey
        = (c4wHmac masterSecret (List.replicate 20 7)).take 32
      ∧ ({ privateKey := (List.range 64).take 32,
           chainCode := (List.range 64).drop 32, depth := 0, index := 0,
           parentFingerprint := "0x00000000", path := "m" } : HDNode).chainCode
          = (c4wHmac masterSecret (List.replicate 20 7)).drop 32
      ∧ ({ privateKey := (List.range 64).take 32,
           chainCode := (List.range 64).drop 32, depth := 0, index := 0,
           parentFingerprint := "0x00000000", path := "m" } : HDNode).depth = 0
      ∧ ({ privateKey := (List.range 64).take 32,
           chainCode := (List.range 64).drop 32, depth := 0, index := 0,
           parentFingerprint := "0x00000000", path := "m" } : HDNode).index = 0
      ∧ ({ privateKey := (List.range 64).take 32,
           chainCode := (List.range 64).drop 32, depth := 0, index := 0,
           parentFingerprint := "0x00000000", path := "m" } : HDNode).parentFingerprint
          = "0x00000000"
      ∧ ({ privateKey := (List.range 64).take 32,
           chainCode := (List.range 64).drop 32, depth := 0, index := 0,
           parentFingerprint := "0x00000000", path := "m" } : HDNode).path = "m" :=
  (fromSeed_master_spec c4wHmac (List.replicate 20 7)).2.2
    { privateKey := (List.range 64).take 32,
      chainCode := (List.range 64).drop 32, depth := 0, index := 0,
      parentFingerprint := "0x00000000", path := "m" } (by decide)

/-- C5: `dispose()` on a live `SigningKey` zeroes the 32-byte buffer in
place — the same heap cell now holds all zero bytes, the heap keeps its
shape (nothing is reallocated), every other cell is untouched — marks
the key disposed, and every subsequent `sign(digest)` call on that key
fails instead of returning a signature. -/
theorem dispose_zeroes_in_place_and_blocks_sign (h : Heap) (k : SigningKey)
    (i : Nat) (hk : k.privId = some i) (hi : i < h.length)
    (hlen : (heapRead h i).length = 32) :
    ∃ h2 k2, SigningKey.dispose h k = some (h2, k2)
      ∧ k2.privId = none
      ∧ heapRead h2 i = List.replicate 32 0
      ∧ h2.length = h.length
      ∧ (∀ j, j ≠ i → heapRead h2 j = heapRead h j)
      ∧ ∀ ec d sg, SigningKey.sign ec h2 k2 d ≠ .ok sg := by
  refine ⟨sodiumMemzero h i, { privId := none }, ?_, rfl, ?_, ?_, ?_, ?_⟩
  · rw [SigningKey.dispose, hk]
  · rw [sodiumMemzero, heapRead_set_self h i _ hi, hlen]
  · exact List.length_set h i _
  · intro j hj
    exact heapRead_set_ne h i j _ hj
  · intro ec d sg
    rw [SigningKey.sign]
    split
    · simp
    · simp

/-- Witness for C5: a one-cell heap holding a 32-byte buffer. -/
theorem dispose_zeroes_in_place_and_blocks_sign_witness :
    ∃ h2 k2,
      SigningKey.dispose [List.replicate 32 5] { privId := some 0 }
          = some (h2, k2)
        ∧ k2.privId = none
        ∧ heapRead h2 0 = List.replicate 32 0
        ∧ h2.length = [List.replicate 32 5].length
        ∧ (∀ j, j ≠ 0 → heapRead h2 j = heapRead [List.replicate 32 5] j)
        ∧ ∀ ec d sg, SigningKey.sign ec h2 k2 d ≠ .ok sg :=
  dispose_zeroes_in_place_and_blocks_sign [List.replicate 32 5]
    { privId := some 0 } 0 rfl (by decide) (by decide)

/-- C6: on a non-disposed key, `sign(digest)` fails exactly when the
digest is not 32 bytes; on a 32-byte digest it returns the (functionally
deterministic) ECDSA signature delivered by `secp256k1.sign` with
`lowS: true`, with `v = 27` for recovery bit 0 and `v = 28` otherwise.
If the curve library honours its low-S contract (`2·s ≤ n`), so does
every returned signature. -/
theorem sign_spec (ec : List Nat → List Nat → EcSig) (h : Heap)
    (k : SigningKey) (i : Nat) (hk : k.privId = some i)
    (hlow : ∀ dg pk, 2 * (ec dg pk).s ≤ secpN) (d : List Nat) :
    ((∃ sg, SigningKey.sign ec h k d = .ok sg) ↔ d.length = 32)
      ∧ (d.length = 32 →
          SigningKey.sign ec h k d
            = .ok { r := (ec d (heapRead h i)).r, s := (ec d (heapRead h i)).s,
                    v := if (ec d (heapRead h i)).recovery = 0 then 27 else 28 })
      ∧ ∀ sg, SigningKey.sign ec h k d = .ok sg →
          2 * sg.s ≤ secpN ∧ (sg.v = 27 ∨ sg.v = 28) := by
  have hok : d.length = 32 →
      SigningKey.sign ec h k d
        = .ok { r := (ec d (heapRead h i)).r, s := (ec d (heapRead h i)).s,
                v := if (ec d (heapRead h i)).recovery = 0 then 27 else 28 } := by
    intro h32
    rw [SigningKey.sign, if_pos h32, hk]
  refine ⟨?_, hok, ?_⟩
  · constructor
    · intro ⟨sg, hsg⟩
      by_contra h32
      rw [SigningKey.sign, if_neg h32] at hsg
      simp at hsg
    · intro h32
      exact ⟨_, hok h32⟩
  · intro sg hsg
    by_cases h32 : d.length = 32
    · rw [hok h32] at hsg
      simp only [Except.ok.injEq] at hsg
      subst hsg
      refine ⟨hlow d (heapRead h i), ?_⟩
      split
      · left; rfl
      · right; rfl
    · rw [SigningKey.sign, if_neg h32] at hsg
      simp at hsg

/-- The ECDSA stand-in of C6's witness, trivially low-S. -/
def c6wEc : List Nat → List Nat → EcSig := fun _ _ => { r := 1, s := 1, recovery := 0 }

/-- Witness for C6 on a 32-byte digest and a one-cell heap. -/
theorem sign_spec_witness :
    ((∃ sg, SigningKey.sign c6wEc [List.replicate 32 5] { privId := some 0 }
        (List.replicate 32 9) = .ok sg) ↔ (List.replicate 32 9).length = 32)
      ∧ ((List.replicate 32 9).length = 32 →
          SigningKey.sign c6wEc [List.replicate 32 5] { privId := some 0 }
              (List.replicate 32 9)
            = .ok { r := (c6wEc (List.replicate 32 9)
                      (heapRead [List.replicate 32 5] 0)).r,
                    s := (c6wEc (List.replicate 32 9)
                      (heapRead [List.replicate 32 5] 0)).s,
                    v := if (c6wEc (List.replicate 32 9)
                        (heapRead [List.replicate 32 5] 0)).recovery = 0
                      then 27 else 28 })
      ∧ ∀ sg, SigningKey.sign c6wEc [List.replicate 32 5] { privId := some 0 }
            (List.replicate 32 9) = .ok sg →
          2 * sg.s ≤ secpN ∧ (sg.v = 27 ∨ sg.v = 28) :=
  sign_spec c6wEc [List.replicate 32 5] { privId := some 0 } 0 rfl
    (fun _ _ => by norm_num [c6wEc, secpN]) (List.replicate 32 9)

/-- The one-cell heap of C1's failing input: the parent's private-key
buffer holds the value 1. -/
def c1Heap : Heap := [List.replicate 31 0 ++ [1]]

/-- The parent node of C1's failing input: its signing key references
heap cell 0. -/
def c1Node : HDNodeH :=
  { key := { privId := some 0 }, chainCode := List.replicate 32 0,
    publicKey := List.replicate 33 2, depth := 0, index := 0,
    path := some "m" }

/-- The HMAC stand-in of C1's failing input: `IL` value 1. -/
def c1Hmac : List Nat → List Nat → List Nat :=
  fun _ _ => (List.replicate 31 0 ++ [1]) ++ List.replicate 32 9

/-- The public-key derivation stand-in of C1's failing input. -/
def c1Pub : List Nat → List Nat := fun _ => List.replicate 33 3

/-- C1 (evaluation at the failing input): `deriveChild(0)` on a parent
whose buffer holds 1, with `IL = 1`, rewrites the parent's own heap cell
from value 1 to value 2 — the 32 bytes are NOT identical before and
after the call — and the child's signing key references the very same
cell as the parent (`privId` 0), not a freshly allocated buffer. -/
theorem deriveChild_mutates_parent_and_aliases_child :
    ((deriveChildH c1Hmac c1Pub c1Heap c1Node 0).map
        (fun p => (heapRead p.1 0, p.2.key.privId)))
      = some (List.replicate 31 0 ++ [2], some 0)
    ∧ heapRead c1Heap 0 = List.replicate 31 0 ++ [1]
    ∧ c1Node.key.privId = some 0
    ∧ (List.replicate 31 0 ++ [2] : List Nat) ≠ List.replicate 31 0 ++ [1] := by
  refine ⟨by decide, by decide, by decide, by decide⟩

theorem string_mk_data (s : String) : String.mk s.data = s := rfl

theorem string_data_append (a b : String) :
    (a ++ b).data = a.data ++ b.data := rfl

/-- C8: `_restoreSignature` maps a compact signature whose trailing `v`
part is exactly the string `"0"` to the standard suffix `1b` (v = 27) and
EVERY other trailing value — `"1"` or malformed alike — to `1c` (v = 28):
the restoration tests equality with `"0"` only. -/
theorem restoreSignature_tests_equality_with_zero_only (sig : String) :
    _restoreSignature sig
      = "0x" ++ jsSubstring sig 0 64 ++ jsSubstring sig 64 128
          ++ (if jsSubstringFrom sig 128 = "0" then "1b" else "1c") := by
  simp only [_restoreSignature]
  by_cases hv : jsSubstringFrom sig 128 = "0"
  · rw [if_pos hv, if_pos hv]
    congr 1
  · rw [if_neg hv, if_neg hv]
    congr 1

/-- The concrete signature of C10's instance: `v` bytes `1d` (29, neither
27 nor 28). -/
def c10Sig : String :=
  String.mk (List.replicate 64 'a' ++ List.replicate 64 'b' ++ ['1', 'd'])

/-- C10: in the standard-to-compact direction `_convertSignature` emits
the compact digit `"0"` only when the parsed `v` byte equals exactly 27
and `"1"` for every other parsed value — not only for 28 (the instance:
`v = 0x1d = 29` also emits `"1"`). -/
theorem convertSignature_emits_zero_only_for_27 (sig : String) :
    _convertSignature sig
      = jsSubstring (if startsWith0x sig then jsSubstringFrom sig 2 else sig) 0 64
          ++ jsSubstring (if startsWith0x sig then jsSubstringFrom sig 2 else sig) 64 128
          ++ (if parseIntHex (jsSubstring
                (if startsWith0x sig then jsSubstringFrom sig 2 else sig) 128 130)
              = some 27 then "0" else "1")
      ∧ _convertSignature c10Sig
          = String.mk (List.replicate 64 'a') ++ String.mk (List.replicate 64 'b')
              ++ "1" := by
  constructor
  · simp only [_convertSignature]
    by_cases hp : parseIntHex (jsSubstring
        (if startsWith0x sig then jsSubstringFrom sig 2 else sig) 128 130)
        = some 27
    · rw [if_pos hp, if_pos hp]
      congr 1
    · rw [if_neg hp, if_neg hp]
      congr 1
  · decide

theorem take64_first (l1 l2 : List Char) (h : l1.length = 64) :
    (l1 ++ l2).take 64 = l1 := by
  rw [← h]
  exact take_len_append l1 l2

theorem drop64_first (l1 l2 : List Char) (h : l1.length = 64) :
    (l1 ++ l2).drop 64 = l2 := by
  rw [← h]
  exact drop_len_append l1 l2

theorem drop128_two (l1 l2 l3 : List Char)
    (h1 : l1.length = 64) (h2 : l2.length = 64) :
    (l1 ++ (l2 ++ l3)).drop 128 = l3 := by
  have h : (128 : Nat) = 64 + 64 := by norm_num
  rw [h, ← List.drop_drop, drop64_first l1 _ h1, drop64_first l2 l3 h2]

theorem convert_on_prefixed (r s v : String)
    (hr : r.data.length = 64) (hs : s.data.length = 64)
    (hv2 : v.data.length = 2) :
    _convertSignature ("0x" ++ r ++ s ++ v)
      = r ++ s ++ toString (if parseIntHex v = some 27 then (0 : Nat) else 1) := by
  have h0x : ("0x" : String).data = ['0', 'x'] := by decide
  have hflat : ("0x" ++ r ++ s ++ v).data
      = '0' :: 'x' :: (r.data ++ (s.data ++ v.data)) := by
    simp [string_data_append, h0x]
  have hflatS : ("0x" ++ r ++ s ++ v)
      = String.mk ('0' :: 'x' :: (r.data ++ (s.data ++ v.data))) := by
    have := congrArg String.mk hflat
    rwa [string_mk_data] at this
  rw [hflatS]
  simp only [_convertSignature]
  have hsw : startsWith0x
      (String.mk ('0' :: 'x' :: (r.data ++ (s.data ++ v.data)))) = true := by
    rw [startsWith0x]
    simp
  rw [hsw]
  simp only [if_true]
  rw [show jsSubstringFrom
      (String.mk ('0' :: 'x' :: (r.data ++ (s.data ++ v.data)))) 2
    = String.mk (r.data ++ (s.data ++ v.data)) from rfl]
  rw [show jsSubstring (String.mk (r.data ++ (s.data ++ v.data))) 0 64
    = String.mk ((r.data ++ (s.data ++ v.data)).take 64) from rfl]
  rw [show jsSubstring (String.mk (r.data ++ (s.data ++ v.data))) 64 128
    = String.mk (((r.data ++ (s.data ++ v.data)).drop 64).take 64) from rfl]
  rw [show jsSubstring (String.mk (r.data ++ (s.data ++ v.data))) 128 130
    = String.mk (((r.data ++ (s.data ++ v.data)).drop 128).take 2) from rfl]
  rw [take64_first _ _ hr, drop64_first _ _ hr, take64_first _ _ hs,
    drop128_two _ _ _ hr hs]
  rw [show v.data.take 2 = v.data by rw [← hv2]; exact List.take_length v.data]

theorem restore_on_compact (r s w : String)
    (hr : r.data.length = 64) (hs : s.data.length = 64) :
    _restoreSignature (r ++ s ++ w)
      = "0x" ++ r ++ s
          ++ jsPadStart (String.mk (natToHexList (if w = "0" then 27 else 28)))
              2 '0' := by
  have hflat : (r ++ s ++ w).data = r.data ++ (s.data ++ w.data) := by
    simp [string_data_append]
  have hflatS : (r ++ s ++ w) = String.mk (r.data ++ (s.data ++ w.data)) := by
    have := congrArg String.mk hflat
    rwa [string_mk_data] at this
  rw [hflatS]
  simp only [_restoreSignature]
  rw [show jsSubstring (String.mk (r.data ++ (s.data ++ w.data))) 0 64
    = String.mk ((r.data ++ (s.data ++ w.data)).take 64) from rfl]
  rw [show jsSubstring (String.mk (r.data ++ (s.data ++ w.data))) 64 128
    = String.mk (((r.data ++ (s.data ++ w.data)).drop 64).take 64) from rfl]
  rw [show jsSubstringFrom (String.mk (r.data ++ (s.data ++ w.data))) 128
    = String.mk ((r.data ++ (s.data ++ w.data)).drop 128) from rfl]
  rw [take64_first _ _ hr, drop64_first _ _ hr, take64_first _ _ hs,
    drop128_two _ _ _ hr hs]

/-- The concrete signature of C7's counterexample: a valid standard
signature (64 hex chars of `r`, 64 of `s`, `v = 1b` i.e. 27) WITHOUT the
optional `0x` prefix. -/
def c7Sig : String :=
  String.mk (List.replicate 64 'a' ++ List.replicate 64 'b' ++ ['1', 'b'])

/-- C7 counterexample: the round trip is NOT the identity on every valid
standard-format signature with optional `0x` prefix — on a prefix-less
input `_restoreSignature` unconditionally prepends `0x`, so the result
differs from the original. -/
theorem roundTrip_not_identity_without_prefix :
    _restoreSignature (_convertSignature c7Sig) ≠ c7Sig := by decide

/-- C7 (amended): for every valid standard-format signature carrying the
`0x` prefix (64-character `r` and `s` parts, lowercase `v ∈ {1b, 1c}`),
`_restoreSignature (_convertSignature sig) = sig`: the codec loses no
information on prefixed signatures. -/
theorem roundTrip_identity_with_prefix (r s v : String)
    (hr : r.data.length = 64) (hs : s.data.length = 64)
    (hv : v = "1b" ∨ v = "1c") :
    _restoreSignature (_convertSignature ("0x" ++ r ++ s ++ v))
      = "0x" ++ r ++ s ++ v := by
  rcases hv with hv | hv <;> subst hv
  · rw [convert_on_prefixed r s "1b" hr hs (by decide)]
    rw [show parseIntHex "1b" = some 27 from by decide]
    rw [if_pos rfl]
    rw [show (toString (0 : Nat)) = "0" from by decide]
    rw [restore_on_compact r s "0" hr hs]
    rw [if_pos rfl]
    rw [show jsPadStart (String.mk (natToHexList 27)) 2 '0' = "1b" from by decide]
  · rw [convert_on_prefixed r s "1c" hr hs (by decide)]
    rw [show parseIntHex "1c" = some 28 from by decide]
    rw [if_neg (by decide)]
    rw [show (toString (1 : Nat)) = "1" from by decide]
    rw [restore_on_compact r s "1" hr hs]
    rw [if_neg (by decide)]
    rw [show jsPadStart (String.mk (natToHexList 28)) 2 '0' = "1c" from by decide]

/-- Witness for C7's amended theorem at concrete `r`, `s` and `v = 1b`. -/
theorem roundTrip_identity_with_prefix_witness :
    _restoreSignature (_convertSignature
        ("0x" ++ String.mk (List.replicate 64 'a')
          ++ String.mk (List.replicate 64 'b') ++ "1b"))
      = "0x" ++ String.mk (List.replicate 64 'a')
          ++ String.mk (List.replicate 64 'b') ++ "1b" :=
  roundTrip_identity_with_prefix (String.mk (List.replicate 64 'a'))
    (String.mk (List.replicate 64 'b')) "1b" (by decide) (by decide)
    (Or.inl rfl)

/-- C9: `derivePath` (i) fails with the non-root rejection when the first
component is `"m"` and the node's depth is non-zero; (ii) on the path
`"a'/b/c"` fails naming component `"a'"` at position 0; (iii) when every
processed component matches `^[0-9]+'?$` with value below `0x80000000`,
applies `deriveChild` sequentially left to right with the hardened bit
added for apostrophe components (`componentsIdxs` collects exactly those
indices); (iv) any violating component fails with the error naming the
offending component and its position. -/
theorem derivePath_spec {α : Type} (dc : α → Nat → α) (depth : α → Nat)
    (node : α) (path : String) :
    ((jsSplit path '/').head? = some "m" → depth node ≠ 0 →
        derivePath dc depth node path = .error (.nonRootMaster path))
      ∧ derivePath dc depth node (String.mk ['a', hardenedMark, '/', 'b', '/', 'c'])
          = .error (.invalidPathComponent 0 (String.mk ['a', hardenedMark]))
      ∧ (∀ idxs,
          ((jsSplit path '/').head? = some "m" → depth node = 0) →
          componentsIdxs (if (jsSplit path '/').head? = some "m"
              then (jsSplit path '/').tail else jsSplit path '/') = some idxs →
          derivePath dc depth node path = .ok (idxs.foldl dc node))
      ∧ (∀ pre c post,
          ((jsSplit path '/').head? = some "m" → depth node = 0) →
          (if (jsSplit path '/').head? = some "m"
              then (jsSplit path '/').tail else jsSplit path '/')
            = pre ++ c :: post →
          (∀ c2 ∈ pre, (componentIndex c2).isSome) →
          componentIndex c = none →
          derivePath dc depth node path = .error (violationErr pre.length c)) := by
  have hlen : (jsSplit path '/').length > 0 :=
    List.length_pos.mpr (jsSplit_ne_nil path '/')
  have hunf : derivePath dc depth node path
      = if (jsSplit path '/').head? = some "m" then
          (if depth node = 0
            then derivePathLoop dc node (jsSplit path '/').tail 0
            else .error (.nonRootMaster path))
        else derivePathLoop dc node (jsSplit path '/') 0 := by
    simp only [derivePath]
    rw [if_pos hlen]
  refine ⟨?_, ?_, ?_, ?_⟩
  · intro hm hd
    rw [hunf, if_pos hm, if_neg hd]
  · have hbadlen : (jsSplit (String.mk ['a', hardenedMark, '/', 'b', '/', 'c']) '/').length > 0 :=
      List.length_pos.mpr (jsSplit_ne_nil _ '/')
    have hunf2 : derivePath dc depth node (String.mk ['a', hardenedMark, '/', 'b', '/', 'c'])
        = derivePathLoop dc node
            (jsSplit (String.mk ['a', hardenedMark, '/', 'b', '/', 'c']) '/') 0 := by
      simp only [derivePath]
      rw [if_pos hbadlen, if_neg (by decide)]
    rw [hunf2]
    rw [show jsSplit (String.mk ['a', hardenedMark, '/', 'b', '/', 'c']) '/'
      = [] ++ String.mk ['a', hardenedMark] :: [String.mk ['b'], String.mk ['c']]
      from by decide]
    rw [derivePathLoop_err dc [] (String.mk ['a', hardenedMark])
      [String.mk ['b'], String.mk ['c']] node 0
      (by intro c2 hc2; simp at hc2) (by decide)]
    exact congrArg Except.error (by decide)
  · intro idxs hanchor hidx
    rw [hunf]
    by_cases hm : (jsSplit path '/').head? = some "m"
    · rw [if_pos hm, if_pos (hanchor hm)]
      rw [if_pos hm] at hidx
      exact derivePathLoop_ok dc _ idxs node 0 hidx
    · rw [if_neg hm]
      rw [if_neg hm] at hidx
      exact derivePathLoop_ok dc _ idxs node 0 hidx
  · intro pre c post hanchor hrest hpre hc
    have herr := derivePathLoop_err dc pre c post node 0 hpre hc
    rw [Nat.zero_add] at herr
    rw [hunf]
    by_cases hm : (jsSplit path '/').head? = some "m"
    · rw [if_pos hm, if_pos (hanchor hm)]
      rw [if_pos hm] at hrest
      rw [hrest]
      exact herr
    · rw [if_neg hm]
      rw [if_neg hm] at hrest
      rw [hrest]
      exact herr

/-- The path `"m/1'/2"` of C9's witness. -/
def c9wPath : String := String.mk ['m', '/', '1', hardenedMark, '/', '2']

/-- Witness for C9: on a depth-0 node (recording applied indices in a
list), `derivePath "m/1'/2"` applies `deriveChild` with
`0x80000000 + 1` then `2`, left to right. -/
theorem derivePath_spec_witness :
    derivePath (fun (l : List Nat) i => l ++ [i]) (fun _ => 0)
        ([] : List Nat) c9wPath
      = .ok (([2147483649, 2] : List Nat).foldl
          (fun (l : List Nat) i => l ++ [i]) []) :=
  (derivePath_spec (fun (l : List Nat) i => l ++ [i]) (fun _ => 0)
      ([] : List Nat) c9wPath).2.2.1
    [2147483649, 2] (fun _ => rfl) (by decide)
